import Mathlib

/-!
Verification of the json-tmx-align core transformations.

The TypeScript sources are shallowly embedded as executable Lean functions
over `String` / `List Char`.  Regex-based scans are translated into explicit
left-to-right scanning functions; where the scan does not consume input
structurally a fuel argument bounded by the input length is used (the
wrappers always supply sufficient fuel, `length + 1`).
-/

set_option maxRecDepth 40000

/-! ## Character class helpers (JS regex classes) -/

/-- JS `\s`: whitespace characters as matched by the `\s` regex class and
`String.prototype.trim`. -/
def isJsWs (c : Char) : Bool :=
  let n := c.toNat
  n == 0x20 || n == 0x09 || n == 0x0A || n == 0x0B || n == 0x0C || n == 0x0D ||
  n == 0xA0 || n == 0x1680 || (0x2000 ≤ n && n ≤ 0x200A) || n == 0x2028 ||
  n == 0x2029 || n == 0x202F || n == 0x205F || n == 0x3000 || n == 0xFEFF

/-- JS `[a-zA-Z]`. -/
def isAsciiLetter (c : Char) : Bool :=
  (Char.ofNat 0x61 ≤ c && c ≤ Char.ofNat 0x7A) || (Char.ofNat 0x41 ≤ c && c ≤ Char.ofNat 0x5A)

/-- JS `[a-z]` (lowercase ASCII letter). -/
def isLowerAlpha (c : Char) : Bool :=
  Char.ofNat 0x61 ≤ c && c ≤ Char.ofNat 0x7A

/-- JS `\d` = `[0-9]`. -/
def isAsciiDigit (c : Char) : Bool :=
  Char.ofNat 0x30 ≤ c && c ≤ Char.ofNat 0x39

/-- JS `[a-zA-Z0-9]`. -/
def isAsciiAlnum (c : Char) : Bool :=
  isAsciiLetter c || isAsciiDigit c

/-- JS `\w` = `[A-Za-z0-9_]` (used by the `\b` word-boundary assertion). -/
def isWordChar (c : Char) : Bool :=
  isAsciiAlnum c || c == '_'

/-- JS `[0-9A-Fa-f]`. -/
def isHexDigit (c : Char) : Bool :=
  isAsciiDigit c || (Char.ofNat 0x41 ≤ c && c ≤ Char.ofNat 0x46) ||
  (Char.ofNat 0x61 ≤ c && c ≤ Char.ofNat 0x66)

/-- The apostrophe character (U+0027). -/
def apost : Char := Char.ofNat 39

/-- Value of one decimal digit character. -/
def digitVal (c : Char) : Nat := c.toNat - 0x30

/-- Value of one hexadecimal digit character. -/
def hexVal (c : Char) : Nat :=
  if isAsciiDigit c then c.toNat - 0x30
  else if Char.ofNat 0x41 ≤ c && c ≤ Char.ofNat 0x46 then c.toNat - 0x41 + 10
  else c.toNat - 0x61 + 10

/-- `parseInt(s, 10)` on a nonempty digit run. -/
def digitsToNat (ds : List Char) : Nat :=
  ds.foldl (fun acc c => acc * 10 + digitVal c) 0

/-- `parseInt(s, 16)` on a nonempty hex-digit run. -/
def hexToNat (ds : List Char) : Nat :=
  ds.foldl (fun acc c => acc * 16 + hexVal c) 0

/-! ## EntityDecoder (src/utils/html-entities: decodeHtmlEntities) -/

/-- The fixed named-entity table `HTML_ENTITY_MAP` of the source. -/
def HTML_ENTITY_MAP : List (String × String) :=
  [("agrave", "à"), ("aacute", "á"), ("acirc", "â"), ("atilde", "ã"), ("auml", "ä"), ("aring", "å"),
   ("Agrave", "À"), ("Aacute", "Á"), ("Acirc", "Â"), ("Atilde", "Ã"), ("Auml", "Ä"), ("Aring", "Å"),
   ("ccedil", "ç"), ("Ccedil", "Ç"),
   ("egrave", "è"), ("eacute", "é"), ("ecirc", "ê"), ("euml", "ë"),
   ("Egrave", "È"), ("Eacute", "É"), ("Ecirc", "Ê"), ("Euml", "Ë"),
   ("igrave", "ì"), ("iacute", "í"), ("icirc", "î"), ("iuml", "ï"),
   ("Igrave", "Ì"), ("Iacute", "Í"), ("Icirc", "Î"), ("Iuml", "Ï"),
   ("ograve", "ò"), ("oacute", "ó"), ("ocirc", "ô"), ("otilde", "õ"), ("ouml", "ö"), ("oslash", "ø"),
   ("Ograve", "Ò"), ("Oacute", "Ó"), ("Ocirc", "Ô"), ("Otilde", "Õ"), ("Ouml", "Ö"), ("Oslash", "Ø"),
   ("ugrave", "ù"), ("uacute", "ú"), ("ucirc", "û"), ("uuml", "ü"),
   ("Ugrave", "Ù"), ("Uacute", "Ú"), ("Ucirc", "Û"), ("Uuml", "Ü"),
   ("yacute", "ý"), ("yuml", "ÿ"), ("Yacute", "Ý"),
   ("ntilde", "ñ"), ("Ntilde", "Ñ"),
   ("aelig", "æ"), ("AElig", "Æ"),
   ("szlig", "ß"),
   ("thorn", "þ"), ("THORN", "Þ"),
   ("eth", "ð"), ("ETH", "Ð"),
   ("lsquo", "‘"), ("rsquo", "’"), ("sbquo", "‚"),
   ("ldquo", "“"), ("rdquo", "”"), ("bdquo", "„"),
   ("quot", "\""), ("apos", "\x27"),
   ("lsaquo", "‹"), ("rsaquo", "›"),
   ("laquo", "«"), ("raquo", "»"),
   ("nbsp", " "), ("iexcl", "¡"), ("iquest", "¿"),
   ("hellip", "…"), ("ndash", "–"), ("mdash", "—"),
   ("bull", "•"), ("middot", "·"),
   ("dagger", "†"), ("Dagger", "‡"),
   ("permil", "‰"),
   ("prime", "′"), ("Prime", "″"),
   ("copy", "©"), ("reg", "®"), ("trade", "™"),
   ("euro", "€"), ("pound", "£"), ("yen", "¥"), ("cent", "¢"),
   ("curren", "¤"), ("fnof", "ƒ"),
   ("sect", "§"), ("para", "¶"),
   ("deg", "°"), ("plusmn", "±"),
   ("times", "×"), ("divide", "÷"),
   ("frac14", "¼"), ("frac12", "½"), ("frac34", "¾"),
   ("sup1", "¹"), ("sup2", "²"), ("sup3", "³"),
   ("micro", "µ"),
   ("amp", "&"), ("lt", "<"), ("gt", ">"),
   ("alpha", "α"), ("beta", "β"), ("gamma", "γ"), ("delta", "δ"), ("epsilon", "ε"),
   ("Alpha", "Α"), ("Beta", "Β"), ("Gamma", "Γ"), ("Delta", "Δ"), ("Epsilon", "Ε"),
   ("infin", "∞"), ("sum", "∑"), ("minus", "−"), ("radic", "√"),
   ("ne", "≠"), ("equiv", "≡"), ("le", "≤"), ("ge", "≥")]

/-- `code > 0 ? String.fromCodePoint(code) : match` validity side: Lean `Char`
cannot represent surrogates or values above 0x10FFFF (where JS would produce a
lone surrogate resp. throw a RangeError), so those are modelled as
left-unchanged; no call in this development reaches them. -/
def isValidCp (n : Nat) : Bool :=
  (n < 0xD800) || (0xE000 ≤ n && n < 0x110000)

/-- One global pass of `text.replace(/&([a-zA-Z]+);/g, m => MAP[m] || m)`.
Fuel-based scan; each step consumes at least one character. -/
def namedEntityGo : Nat → List Char → List Char
  | 0, s => s
  | _ + 1, [] => []
  | fuel + 1, '&' :: rest =>
      let name := rest.takeWhile isAsciiLetter
      if name.isEmpty then '&' :: namedEntityGo fuel rest
      else
        match rest.drop name.length with
        | ';' :: after =>
            (match HTML_ENTITY_MAP.lookup (String.mk name) with
             | some repl => repl.data ++ namedEntityGo fuel after
             | none => '&' :: name ++ ';' :: namedEntityGo fuel after)
        | _ => '&' :: namedEntityGo fuel rest
  | fuel + 1, c :: rest => c :: namedEntityGo fuel rest

/-- One global pass of `text.replace(/&#(\d+);/g, ...)`. -/
def decEntityGo : Nat → List Char → List Char
  | 0, s => s
  | _ + 1, [] => []
  | fuel + 1, '&' :: '#' :: rest =>
      let ds := rest.takeWhile isAsciiDigit
      if ds.isEmpty then '&' :: decEntityGo fuel ('#' :: rest)
      else
        match rest.drop ds.length with
        | ';' :: after =>
            let code := digitsToNat ds
            if code > 0 && isValidCp code then
              Char.ofNat code :: decEntityGo fuel after
            else
              '&' :: '#' :: ds ++ ';' :: decEntityGo fuel after
        | _ => '&' :: decEntityGo fuel ('#' :: rest)
  | fuel + 1, c :: rest => c :: decEntityGo fuel rest

/-- One global pass of `text.replace(/&#x([0-9A-Fa-f]+);/g, ...)` (literal
lowercase `x` as in the source). -/
def hexEntityGo : Nat → List Char → List Char
  | 0, s => s
  | _ + 1, [] => []
  | fuel + 1, '&' :: '#' :: 'x' :: rest =>
      let ds := rest.takeWhile isHexDigit
      if ds.isEmpty then '&' :: hexEntityGo fuel ('#' :: 'x' :: rest)
      else
        match rest.drop ds.length with
        | ';' :: after =>
            let code := hexToNat ds
            if code > 0 && isValidCp code then
              Char.ofNat code :: hexEntityGo fuel after
            else
              '&' :: '#' :: 'x' :: ds ++ ';' :: hexEntityGo fuel after
        | _ => '&' :: hexEntityGo fuel ('#' :: 'x' :: rest)
  | fuel + 1, c :: rest => c :: hexEntityGo fuel rest

/-- One iteration of the decoding `while` loop: the three chained `replace`
calls (named, then decimal numeric, then hexadecimal numeric). -/
def decodePass (s : List Char) : List Char :=
  let s1 := namedEntityGo (s.length + 1) s
  let s2 := decEntityGo (s1.length + 1) s1
  hexEntityGo (s2.length + 1) s2

/-- The `while (result !== previousResult && iteration < maxIterations)` loop:
`fuel` is the number of passes still allowed. -/
def decodeGo : Nat → List Char → List Char → List Char
  | 0, _, cur => cur
  | fuel + 1, prev, cur =>
      if cur = prev then cur else decodeGo fuel cur (decodePass cur)

/-- `decodeHtmlEntities(text, maxIterations = 5)` of src/utils/html-entities;
`previousResult` starts as the empty string. -/
def decodeHtmlEntities (text : String) (maxIterations : Nat := 5) : String :=
  if text = "" then text
  else String.mk (decodeGo maxIterations [] text.data)

/-! ## TextNormalizer + Segmenter (segmentIntoSentences) -/

/-- `[￼​‌‍⁠﻿]`: object-replacement and
zero-width characters removed by normalization. -/
def invisibleChars : List Char :=
  [Char.ofNat 0xFFFC, Char.ofNat 0x200B, Char.ofNat 0x200C, Char.ofNat 0x200D,
   Char.ofNat 0x2060, Char.ofNat 0xFEFF]

/-- `\s+` → single space: collapse each whitespace run to one ordinary space. -/
def collapseWs : List Char → List Char
  | [] => []
  | [c] => if isJsWs c then [' '] else [c]
  | c1 :: c2 :: rest =>
      if isJsWs c1 && isJsWs c2 then collapseWs (c2 :: rest)
      else (if isJsWs c1 then ' ' else c1) :: collapseWs (c2 :: rest)

/-- `String.prototype.trim`. -/
def trimWs (s : List Char) : List Char :=
  ((s.dropWhile isJsWs).reverse.dropWhile isJsWs).reverse

/-- Normalization chain of `segmentIntoSentences`: remove invisible
characters, convert non-breaking/narrow-no-break spaces to spaces, collapse
whitespace runs, trim. -/
def normalizeText (s : List Char) : List Char :=
  trimWs (collapseWs ((s.filter (fun c => !(invisibleChars.contains c))).map
    (fun c => if c.toNat == 0xA0 || c.toNat == 0x202F then ' ' else c)))

/-- `processedText.replace(/(\d)\.(\d)/g, m => d1 ++ sentinel ++ d2)`:
protect decimal dots; scanning resumes after the second digit. -/
def protectDecimals : List Char → List Char
  | c1 :: '.' :: c2 :: rest =>
      if isAsciiDigit c1 && isAsciiDigit c2 then
        c1 :: ("__DECIMAL_DOT__".data ++ (c2 :: protectDecimals rest))
      else c1 :: protectDecimals ('.' :: c2 :: rest)
  | c :: rest => c :: protectDecimals rest
  | [] => []

/-- The fixed abbreviation list of the source (each entry is used as a regex
source string, so an embedded dot is a wildcard). -/
def abbreviations : List String :=
  ["Dr", "Mr", "Mrs", "Ms", "Prof", "Sr", "Jr", "Inc", "Ltd", "Co", "Corp",
   "etc", "i.e", "e.g", "vs", "U.S", "U.K", "A.M", "P.M"]

/-- The placeholder `__ABBREV_idx__`. -/
def placeholderFor (idx : Nat) : List Char :=
  ("__ABBREV_" ++ Nat.repr idx ++ "__").data

/-- Match the body of `new RegExp("\\b" + abbrev + "\\.", "gi")` after the
boundary: abbreviation characters (a dot in the abbreviation is the regex
wildcard, which excludes line terminators; letters compare
case-insensitively), then a literal dot.  Returns (matched text, rest). -/
def matchPatChars : List Char → List Char → Option (List Char × List Char)
  | [], s =>
      match s with
      | '.' :: rest => some (['.'], rest)
      | _ => none
  | p :: ps, c :: cs =>
      if p == '.' then
        if c == '\n' || c == '\r' || c.toNat == 0x2028 || c.toNat == 0x2029 then none
        else
          match matchPatChars ps cs with
          | some (m, rest) => some (c :: m, rest)
          | none => none
      else if p.toLower == c.toLower then
        match matchPatChars ps cs with
        | some (m, rest) => some (c :: m, rest)
        | none => none
      else none
  | _ :: _, [] => none

/-- One global pass replacing a single abbreviation pattern with its
placeholder, recording the last matched text (the `Map.set` in the callback
overwrites on every match).  `prev` carries the previous character for the
`\b` assertion (all patterns start with a letter, so the boundary holds
exactly when the previous character is not a word character). -/
def replaceAbbrevGo : Nat → Option Char → List Char → List Char → List Char →
    List Char × Option (List Char)
  | 0, _, _, _, s => (s, none)
  | _ + 1, _, _, _, [] => ([], none)
  | fuel + 1, prev, pat, ph, c :: rest =>
      let boundary := match prev with
        | none => true
        | some pc => !(isWordChar pc)
      if boundary then
        match matchPatChars pat (c :: rest) with
        | some (m, rest') =>
            let (out, r) := replaceAbbrevGo fuel (some '.') pat ph rest'
            (ph ++ out, some (match r with | some m' => m' | none => m))
        | none =>
            let (out, r) := replaceAbbrevGo fuel (some c) pat ph rest
            (c :: out, r)
      else
        let (out, r) := replaceAbbrevGo fuel (some c) pat ph rest
        (c :: out, r)

/-- The abbreviation-protection fold: apply each abbreviation pattern in
order, collecting `abbrevMap` entries (placeholder, last matched text). -/
def protectAbbreviations (s : List Char) : List Char × List (List Char × List Char) :=
  (abbreviations.enum).foldl
    (fun (acc : List Char × List (List Char × List Char)) (p : Nat × String) =>
      let ph := placeholderFor p.1
      let (text', lastM) := replaceAbbrevGo (acc.1.length + 1) none p.2.data ph acc.1
      match lastM with
      | some m => (text', acc.2 ++ [(ph, m)])
      | none => (text', acc.2))
    (s, [])

/-- `[•*\-–—]`. -/
def bulletChars : List Char :=
  [Char.ofNat 0x2022, '*', '-', Char.ofNat 0x2013, Char.ofNat 0x2014]

def isBullet (c : Char) : Bool := bulletChars.contains c

/-- After `^` or a line break: `\s*(?:(\d+\.)|([•*\-–—]))\s+`; on success
returns the rest after the whole match (the marker itself is consumed and
dropped, as the replacement keeps only the captured line break). -/
def tryListMarker (s : List Char) : Option (List Char) :=
  match s.dropWhile isJsWs with
  | c :: rest =>
      if isAsciiDigit c then
        let ds := (c :: rest).takeWhile isAsciiDigit
        match (c :: rest).drop ds.length with
        | '.' :: r2 =>
            let ws2 := r2.takeWhile isJsWs
            if ws2.isEmpty then none else some (r2.drop ws2.length)
        | _ => none
      else if isBullet c then
        let ws2 := rest.takeWhile isJsWs
        if ws2.isEmpty then none else some (rest.drop ws2.length)
      else none
  | [] => none

/-- Scan for the `\r?\n` alternative of the list-marker rule (the `^`
alternative is handled once by the wrapper). -/
def listSentinelGo : Nat → List Char → List Char
  | 0, s => s
  | _ + 1, [] => []
  | fuel + 1, '\r' :: '\n' :: rest =>
      (match tryListMarker rest with
       | some r => '\r' :: '\n' :: '|' :: '|' :: '|' :: listSentinelGo fuel r
       | none => '\r' :: listSentinelGo fuel ('\n' :: rest))
  | fuel + 1, '\n' :: rest =>
      (match tryListMarker rest with
       | some r => '\n' :: '|' :: '|' :: '|' :: listSentinelGo fuel r
       | none => '\n' :: listSentinelGo fuel rest)
  | fuel + 1, c :: rest => c :: listSentinelGo fuel rest

/-- `processedText.replace(/(^|\r?\n)\s*(?:(\d+\.)|([•*\-–—]))\s+/g, m => lb ++ sentinel)`. -/
def insertListSentinels (s : List Char) : List Char :=
  match tryListMarker s with
  | some r => '|' :: '|' :: '|' :: listSentinelGo (r.length + 1) r
  | none => listSentinelGo (s.length + 1) s

/-- Lookahead `(?=\d+\.|[•*\-–—])`. -/
def markerAhead (s : List Char) : Bool :=
  match s with
  | c :: rest =>
      if isAsciiDigit c then
        let ds := (c :: rest).takeWhile isAsciiDigit
        match (c :: rest).drop ds.length with
        | '.' :: _ => true
        | _ => false
      else isBullet c
  | [] => false

/-- `processedText.replace(/:\s+(?=\d+\.|[•*\-–—])/g, m => colon ++ sentinel)`. -/
def colonSentinelGo : Nat → List Char → List Char
  | 0, s => s
  | _ + 1, [] => []
  | fuel + 1, ':' :: rest =>
      let ws := rest.takeWhile isJsWs
      if ws.isEmpty then ':' :: colonSentinelGo fuel rest
      else
        let after := rest.drop ws.length
        if markerAhead after then ':' :: '|' :: '|' :: '|' :: colonSentinelGo fuel after
        else ':' :: colonSentinelGo fuel rest
  | fuel + 1, c :: rest => c :: colonSentinelGo fuel rest

/-- `processedText.split("|||")`. -/
def splitOnSentinelGo : List Char → List Char → List (List Char)
  | cur, '|' :: '|' :: '|' :: rest => cur :: splitOnSentinelGo [] rest
  | cur, c :: rest => splitOnSentinelGo (cur ++ [c]) rest
  | cur, [] => [cur]

/-- Lookahead `(?=\s|$|<|["')\]])` of the sentence pattern. -/
def sentenceLookahead (s : List Char) : Bool :=
  match s with
  | [] => true
  | c :: _ => isJsWs c || c == '<' || c == '"' || c == apost || c == ')' || c == ']'

/-- One attempt of `(?:…|\.{3}|[.!?])(?=\s|$|<|["')\]])` at the current
position, in alternation order; returns the match length. -/
def tryTerminator : List Char → Option Nat
  | '…' :: rest => if sentenceLookahead rest then some 1 else none
  | '.' :: '.' :: '.' :: rest =>
      if sentenceLookahead rest then some 3
      else if sentenceLookahead ('.' :: '.' :: rest) then some 1
      else none
  | '.' :: rest => if sentenceLookahead rest then some 1 else none
  | '!' :: rest => if sentenceLookahead rest then some 1 else none
  | '?' :: rest => if sentenceLookahead rest then some 1 else none
  | _ => none

/-- The `regex.exec` loop over one part: cut at each terminator match, trim
each piece, keep nonempty pieces, append the trimmed remainder. -/
def execSentGo : Nat → List Char → List (List Char) → List Char → List (List Char)
  | 0, cur, acc, rest =>
      acc ++ (let rem := trimWs (cur ++ rest); if rem.isEmpty then [] else [rem])
  | _ + 1, cur, acc, [] =>
      acc ++ (let rem := trimWs cur; if rem.isEmpty then [] else [rem])
  | fuel + 1, cur, acc, c :: rest =>
      match tryTerminator (c :: rest) with
      | some len =>
          let sentence := trimWs (cur ++ (c :: rest).take len)
          let acc' := if sentence.isEmpty then acc else acc ++ [sentence]
          execSentGo fuel [] acc' ((c :: rest).drop len)
      | none => execSentGo fuel (cur ++ [c]) acc rest

/-- Per-part processing: trim, skip empty parts, split on sentence endings,
fall back to the whole trimmed part when no split happened. -/
def splitPartIntoSentences (part : List Char) : List (List Char) :=
  let trimmed := trimWs part
  if trimmed.isEmpty then []
  else
    let sentences := execSentGo (trimmed.length + 1) [] [] trimmed
    if sentences.isEmpty then [trimmed] else sentences

/-- `listStartsWith p s`: `p` is a leading run of `s`. -/
def listStartsWith : List Char → List Char → Bool
  | [], _ => true
  | _ :: _, [] => false
  | p :: ps, c :: cs => p == c && listStartsWith ps cs

/-- Plain global substring replacement (placeholders contain no regex
metacharacters). -/
def replaceAllSub : Nat → List Char → List Char → List Char → List Char
  | 0, _, _, s => s
  | _ + 1, _, _, [] => []
  | fuel + 1, sub, repl, c :: rest =>
      if !sub.isEmpty && listStartsWith sub (c :: rest) then
        repl ++ replaceAllSub fuel sub repl ((c :: rest).drop sub.length)
      else c :: replaceAllSub fuel sub repl rest

/-- `segment.replace(/^[•*\-–—]\s+/, "")`. -/
def stripLeadBullet (s : List Char) : List Char :=
  match s with
  | c :: rest =>
      if isBullet c then
        let ws := rest.takeWhile isJsWs
        if ws.isEmpty then s else rest.drop ws.length
      else s
  | [] => []

/-- Restoration of one segment: put back abbreviations (in map insertion
order) and decimal dots, strip a leading bullet, trim. -/
def restoreSegment (abbrevMap : List (List Char × List Char)) (seg : List Char) : List Char :=
  let r1 := abbrevMap.foldl
    (fun t (p : List Char × List Char) => replaceAllSub (t.length + 1) p.1 p.2 t) seg
  let r2 := replaceAllSub (r1.length + 1) "__DECIMAL_DOT__".data ['.'] r1
  trimWs (stripLeadBullet r2)

/-- Steps 2–7 of the segmenter on the normalized text: protection, sentinel
insertion, splitting, restoration and filtering. -/
def segmentCore (normalized : List Char) : List (List Char) :=
  let decProtected := protectDecimals normalized
  let (abbrevProtected, abbrevMap) := protectAbbreviations decProtected
  let withList := insertListSentinels abbrevProtected
  let withColon := colonSentinelGo (withList.length + 1) withList
  let parts := splitOnSentinelGo [] withColon
  let segments := parts.foldl (fun acc part => acc ++ splitPartIntoSentences part) []
  (segments.map (restoreSegment abbrevMap)).filter (fun s => !s.isEmpty)

/-- `segmentIntoSentences(text)` of the aligner module. -/
def segmentIntoSentences (text : String) : List String :=
  if text = "" then [text]
  else
    let normalized := normalizeText text.data
    if normalized.isEmpty then [text]
    else
      let restored := segmentCore normalized
      if restored.isEmpty then [text] else restored.map String.mk

/-! ## Document model and Aligner (flattenJSON, getBaseName, parseJsonFiles) -/

mutual
inductive Json where
  | str (s : String)
  | num (n : Int)
  | bool (b : Bool)
  | null
  | arr (xs : JsonList)
  | obj (fields : JsonFields)
inductive JsonList where
  | nil
  | cons (hd : Json) (tl : JsonList)
inductive JsonFields where
  | nil
  | cons (key : String) (val : Json) (tl : JsonFields)
end

def JsonFields.toList : JsonFields → List (String × Json)
  | .nil => []
  | .cons k v tl => (k, v) :: tl.toList

def JsonList.get? : JsonList → Nat → Option Json
  | .nil, _ => none
  | .cons x _, 0 => some x
  | .cons _ tl, n + 1 => tl.get? n

/-- The flat `Record<string, string>` of key paths to strings, in insertion
order (the reordering JS applies to integer-like object keys never affects
key-path records, whose keys contain dots). -/
abbrev Record := List (String × String)

/-- `items[k] = v` / one step of `Object.assign`: overwrite in place or
append. -/
def recordInsert : Record → String → String → Record
  | [], k, v => [(k, v)]
  | (k', v') :: rest, k, v =>
      if k' = k then (k', v) :: rest else (k', v') :: recordInsert rest k v

/-- `Object.assign(items, sub)`. -/
def recordAssign (items sub : Record) : Record :=
  sub.foldl (fun acc p => recordInsert acc p.1 p.2) items

/-- `items[k]` lookup. -/
def recordGet : Record → String → Option String
  | [], _ => none
  | (k', v') :: rest, k => if k' = k then some v' else recordGet rest k

/-- Whether a key path is present in the record. -/
def recordHasKey (items : Record) (k : String) : Bool :=
  items.any (fun p => p.1 == k)

/-- `parentKey ? parentKey + "." + key : key`. -/
def joinKey (parentKey key : String) : String :=
  if parentKey = "" then key else parentKey ++ "." ++ key

mutual
/-- The `for key in obj` loop body chain of `flattenJSON`, threaded over the
accumulated `items`. -/
def flattenFields : JsonFields → String → Record → Record
  | .nil, _, items => items
  | .cons k v rest, pk, items => flattenFields rest pk (flattenEntry pk k v items)
/-- One field of the loop: nested objects recurse with `Object.assign`,
arrays wrap each element in a one-field object `\x7b idx: item \x7d` under the
same new key, string leaves are written, other leaves are skipped.
`flattenJSON(obj [(k, v)], nk)` equals `flattenEntry nk k v []`, so the
one-field wrapper is inlined here. -/
def flattenEntry : String → String → Json → Record → Record
  | pk, key, v, items =>
    match v with
    | .obj fs => recordAssign items (flattenFields fs (joinKey pk key) [])
    | .arr xs => flattenArrItems (joinKey pk key) 0 xs items
    | .str s => recordInsert items (joinKey pk key) s
    | _ => items
/-- `obj[key].forEach((item, idx) => Object.assign(items, flattenJSON({[idx]: item}, newKey)))`. -/
def flattenArrItems : String → Nat → JsonList → Record → Record
  | _, _, .nil, items => items
  | newKey, idx, .cons item rest, items =>
      flattenArrItems newKey (idx + 1) rest
        (recordAssign items (flattenEntry newKey (Nat.repr idx) item []))
end

/-- Top-level array document: `for key in obj` enumerates the indices. -/
def flattenTopArr : String → Nat → JsonList → Record → Record
  | _, _, .nil, items => items
  | pk, idx, .cons item rest, items =>
      flattenTopArr pk (idx + 1) rest (flattenEntry pk (Nat.repr idx) item items)

/-- Top-level string document: `for key in obj` enumerates character
indices, each character is a string value. -/
def flattenTopStr : String → Nat → List Char → Record → Record
  | _, _, [], items => items
  | pk, idx, c :: rest, items =>
      flattenTopStr pk (idx + 1) rest
        (recordInsert items (joinKey pk (Nat.repr idx)) (String.mk [c]))

/-- `flattenJSON(obj, parentKey = "")` of the aligner module. -/
def flattenJSON (obj : Json) (parentKey : String := "") : Record :=
  match obj with
  | .obj fs => flattenFields fs parentKey []
  | .arr xs => flattenTopArr parentKey 0 xs []
  | .str s => flattenTopStr parentKey 0 s.data []
  | _ => []

/-- `pathOrName.split(/[\\/]/)`. -/
def splitOnSlashGo : List Char → List Char → List (List Char)
  | cur, c :: rest =>
      if c == '/' || c == '\\' then cur :: splitOnSlashGo [] rest
      else splitOnSlashGo (cur ++ [c]) rest
  | cur, [] => [cur]

/-- `/^([a-z]{2})(?:[-_][A-Za-z]{2})?$/` (no ignore-case flag). -/
def isLangSeg : List Char → Bool
  | [a, b] => isLowerAlpha a && isLowerAlpha b
  | [a, b, sp, c, d] =>
      isLowerAlpha a && isLowerAlpha b && (sp == '-' || sp == '_') &&
      isAsciiLetter c && isAsciiLetter d
  | _ => false

def toLowerList (s : List Char) : List Char := s.map Char.toLower

/-- Case-insensitive suffix test. -/
def endsWithCI (suffix s : List Char) : Bool :=
  listStartsWith (toLowerList suffix).reverse (toLowerList s).reverse

/-- `base.replace(/\.(json|js)$/i, "")`. -/
def stripExtension (s : List Char) : List Char :=
  if endsWithCI ".json".data s then s.take (s.length - 5)
  else if endsWithCI ".js".data s then s.take (s.length - 3)
  else s

/-- `[._-]+` followed by the rest. -/
def sepRun (s : List Char) : Option (List Char) :=
  let run := s.takeWhile (fun c => c == '.' || c == '_' || c == '-')
  if run.isEmpty then none else some (s.drop run.length)

/-- `base.replace(/^([a-z]{2})(?:[-_][A-Za-z]{2})?[._-]+/i, "")`; the
optional region group is tried greedily first, backtracking to the bare form
when no separator run follows. -/
def stripLeadingLang (s : List Char) : List Char :=
  match s with
  | a :: b :: rest =>
      if isAsciiLetter a && isAsciiLetter b then
        (match rest with
         | sp :: c :: d :: rest2 =>
             if (sp == '-' || sp == '_') && isAsciiLetter c && isAsciiLetter d then
               (match sepRun rest2 with
                | some r => r
                | none =>
                  match sepRun rest with
                  | some r => r
                  | none => s)
             else
               (match sepRun rest with
                | some r => r
                | none => s)
         | _ =>
             match sepRun rest with
             | some r => r
             | none => s)
      else s
  | _ => s

/-- Whether the whole suffix matches `[._-]+([a-z]{2})(?:[-_][A-Za-z]{2})?$/i`. -/
def tryTrailingLang (s : List Char) : Bool :=
  let run := s.takeWhile (fun c => c == '.' || c == '_' || c == '-')
  if run.isEmpty then false
  else
    match s.drop run.length with
    | [a, b] => isAsciiLetter a && isAsciiLetter b
    | [a, b, sp, c, d] =>
        isAsciiLetter a && isAsciiLetter b && (sp == '-' || sp == '_') &&
        isAsciiLetter c && isAsciiLetter d
    | _ => false

/-- `base.replace(/[._-]+([a-z]{2})(?:[-_][A-Za-z]{2})?$/i, "")`: leftmost
position whose suffix matches is cut. -/
def stripTrailingGo : Nat → List Char → List Char
  | 0, s => s
  | _ + 1, [] => []
  | fuel + 1, c :: rest =>
      if tryTrailingLang (c :: rest) then []
      else c :: stripTrailingGo fuel rest

/-- `getBaseName(pathOrName)` of the aligner module (the active variant with
language-folder filtering). -/
def getBaseName (pathOrName : String) : String :=
  let parts := (splitOnSlashGo [] pathOrName.data).filter (fun p => !p.isEmpty)
  let filtered := parts.filter (fun seg => !(isLangSeg seg))
  let last := (if !filtered.isEmpty then filtered else parts).getLastD []
  let base1 := stripExtension last
  let base2 := stripLeadingLang base1
  String.mk (stripTrailingGo (base2.length + 1) base2)

structure JsonFile where
  name : String
  content : Json
  path : Option String

structure TranslationUnit where
  sourceText : String
  targetText : String
  keyPath : String
  filePath : String
  segmentIndex : Option Nat
  totalSegments : Option Nat
  deriving DecidableEq, Repr

/-- `file.path || file.name` (an empty path string is falsy). -/
def filePathOrName (f : JsonFile) : String :=
  match f.path with
  | some p => if p = "" then f.name else p
  | none => f.name

/-- The body of the `Object.entries(sourceFlat).forEach` loop of
`parseJsonFiles`: produce the translation units and missing-key diagnostics
for one flattened source entry. -/
def processEntry (enableSegmentation : Bool) (sourceFileName targetFileName : String)
    (targetFlat : Record) (key sourceText : String) :
    List TranslationUnit × List String :=
  let targetText := (recordGet targetFlat key).getD ""
  let missing :=
    if targetText = "" then
      ["Missing target for key \"" ++ key ++ "\" in " ++ targetFileName]
    else []
  let units :=
    if enableSegmentation && sourceText.length > 0 then
      let sourceSegments := segmentIntoSentences sourceText
      let targetSegments := if targetText ≠ "" then segmentIntoSentences targetText else []
      if targetText ≠ "" && sourceSegments.length == targetSegments.length &&
          sourceSegments.length > 1 then
        (List.range sourceSegments.length).map (fun i =>
          ⟨sourceSegments.getD i "", targetSegments.getD i "", key, sourceFileName,
           some (i + 1), some sourceSegments.length⟩)
      else if targetText ≠ "" && sourceSegments.length != targetSegments.length &&
          sourceSegments.length > 1 then
        [⟨sourceText, targetText, key, sourceFileName, none, none⟩]
      else
        [⟨sourceText, targetText, key, sourceFileName, none, none⟩]
    else
      [⟨sourceText, targetText, key, sourceFileName, none, none⟩]
  (units, missing)

/-- `parseJsonFiles(sourceFiles, targetFiles, enableSegmentation = false)` of
the aligner module (the active segmentation-aware variant); returns
(translationUnits, errors, missingKeys).  The per-file `try/catch` has no
effect in the embedding since every modelled operation is total. -/
def parseJsonFiles (sourceFiles targetFiles : List JsonFile)
    (enableSegmentation : Bool := false) :
    List TranslationUnit × List String × List String :=
  if sourceFiles.length = 0 then ([], ["No source files provided"], [])
  else
    sourceFiles.foldl
      (fun acc sourceFile =>
        let baseName := getBaseName (filePathOrName sourceFile)
        match targetFiles.find? (fun tf => getBaseName (filePathOrName tf) == baseName) with
        | none =>
            (acc.1, acc.2.1 ++ ["No corresponding target file found for " ++ sourceFile.name],
             acc.2.2)
        | some targetFile =>
            let sourceFlat := flattenJSON sourceFile.content
            let targetFlat := flattenJSON targetFile.content
            let stepped := sourceFlat.foldl
              (fun acc2 kv =>
                let r := processEntry enableSegmentation sourceFile.name targetFile.name
                  targetFlat kv.1 kv.2
                (acc2.1 ++ r.1, acc2.2 ++ r.2))
              (([], []) : List TranslationUnit × List String)
            (acc.1 ++ stepped.1, acc.2.1, acc.2.2 ++ stepped.2))
      (([], [], []) : List TranslationUnit × List String × List String)

/-! ## TagStructureConverter (src/utils/html-tag-parser.ts) -/

inductive TagType where
  | pairedStart
  | pairedEnd
  | selfClosing
  | standalone
  deriving DecidableEq, Repr

structure RawTag where
  fullTag : String
  tagName : String
  index : Nat
  deriving DecidableEq, Repr

structure StackEntry where
  tagName : String
  id : Nat
  startIndex : Nat
  deriving DecidableEq, Repr

structure TagInfo where
  type : TagType
  fullTag : String
  tagName : String
  index : Nat
  pairId : Nat
  deriving DecidableEq, Repr

/-- One attempt of `/<\/?([a-zA-Z][a-zA-Z0-9]*)[^>]*\/?>/` at a position just
after a `<`: optional slash, a name (letter then alphanumerics, greedy), then
everything up to the first `>`.  Returns (tag text after the `<`, tag name,
rest of the input after the `>`). -/
def tryTagAfterLt (t : List Char) : Option (List Char × String × List Char) :=
  let sl : List Char × List Char :=
    match t with
    | '/' :: r => (['/'], r)
    | _ => ([], t)
  match sl.2 with
  | c :: r =>
      if isAsciiLetter c then
        let nameTail := r.takeWhile isAsciiAlnum
        let afterName := r.drop nameTail.length
        let mid := afterName.takeWhile (fun x => x != '>')
        match afterName.drop mid.length with
        | '>' :: remainder =>
            some (sl.1 ++ (c :: nameTail) ++ mid ++ ['>'], String.mk (c :: nameTail), remainder)
        | _ => none
      else none
  | [] => none

/-- The `tagRegex.exec` scan: leftmost matches, continuing after each match;
`pos` is the absolute index of the current suffix. -/
def findTagsAux : Nat → Nat → List Char → List RawTag
  | 0, _, _ => []
  | _ + 1, _, [] => []
  | fuel + 1, pos, c :: rest =>
      if c == '<' then
        match tryTagAfterLt rest with
        | some (tagRest, name, remainder) =>
            ⟨String.mk ('<' :: tagRest), name, pos⟩ ::
              findTagsAux fuel (pos + (tagRest.length + 1)) remainder
        | none => findTagsAux fuel (pos + 1) rest
      else findTagsAux fuel (pos + 1) rest

/-- All tag matches of `convertHtmlTagsToTmxInline`'s first pass. -/
def findHtmlTags (text : String) : List RawTag :=
  findTagsAux (text.data.length + 1) 0 text.data

/-- `fullTag.endsWith("/>")`. -/
def isSelfClosingTag (ft : String) : Bool :=
  listStartsWith ['>', '/'] ft.data.reverse

/-- `fullTag.startsWith("</")`. -/
def isClosingTag (ft : String) : Bool :=
  listStartsWith ['<', '/'] ft.data

/-- The fixed void-element list. -/
def standaloneTagNames : List String := ["br", "hr", "img", "input", "meta", "link"]

/-- `tagStack.findIndex(t => t.tagName === tagName)` followed by
`splice(idx, 1)`: decompose the stack at the first entry (oldest pushed)
whose name matches. -/
def splitFirst : List StackEntry → String → Option (List StackEntry × StackEntry × List StackEntry)
  | [], _ => none
  | e :: rest, name =>
      if e.tagName = name then some ([], e, rest)
      else
        match splitFirst rest name with
        | some (pre, f, post) => some (e :: pre, f, post)
        | none => none

/-- One iteration of the first-pass `while` loop of
`convertHtmlTagsToTmxInline`: classify one raw tag, updating the open-tag
stack, the tag list and the fresh-id counter. -/
def classifyStep (st : List StackEntry × List TagInfo × Nat) (r : RawTag) :
    List StackEntry × List TagInfo × Nat :=
  let stack := st.1
  let tags := st.2.1
  let ctr := st.2.2
  if isSelfClosingTag r.fullTag then
    (stack, tags ++ [⟨.selfClosing, r.fullTag, r.tagName, r.index, ctr⟩], ctr + 1)
  else if isClosingTag r.fullTag then
    match splitFirst stack r.tagName with
    | some (pre, e, post) =>
        (pre ++ post, tags ++ [⟨.pairedEnd, r.fullTag, r.tagName, r.index, e.id⟩], ctr)
    | none =>
        (stack, tags ++ [⟨.standalone, r.fullTag, r.tagName, r.index, ctr⟩], ctr + 1)
  else if standaloneTagNames.contains (String.mk (toLowerList r.tagName.data)) then
    (stack, tags ++ [⟨.standalone, r.fullTag, r.tagName, r.index, ctr⟩], ctr + 1)
  else
    (stack ++ [⟨r.tagName, ctr, r.index⟩],
     tags ++ [⟨.pairedStart, r.fullTag, r.tagName, r.index, ctr⟩], ctr + 1)

/-- `tags.find(t => t.index === unclosed.startIndex)` mutated to standalone:
demote the first tag carrying the given text index. -/
def demoteAt (i : Nat) : List TagInfo → List TagInfo
  | [] => []
  | t :: ts => if t.index = i then { t with type := .standalone } :: ts else t :: demoteAt i ts

/-- The `while (tagStack.length > 0)` cleanup: pop entries from the top of
the stack (end of the list) and demote their opener tags. -/
def demoteAll (stack : List StackEntry) (tags : List TagInfo) : List TagInfo :=
  stack.reverse.foldl (fun ts e => demoteAt e.startIndex ts) tags

/-- First pass plus cleanup: the classified tag list of
`convertHtmlTagsToTmxInline` on a raw tag sequence. -/
def classifyTags (raws : List RawTag) : List TagInfo :=
  let st := raws.foldl classifyStep ([], [], 1)
  demoteAll st.1 st.2.1

/-- Global single-character replacement (one `replace(/c/g, repl)` pass). -/
def replaceCharBy (c : Char) (repl : List Char) (s : List Char) : List Char :=
  s.foldr (fun x acc => if x == c then repl ++ acc else x :: acc) []

/-- `escapeXmlContent`: the five chained XML character escapes. -/
def escapeXmlContent (s : String) : String :=
  let s1 := replaceCharBy '&' "&amp;".data s.data
  let s2 := replaceCharBy '<' "&lt;".data s1
  let s3 := replaceCharBy '>' "&gt;".data s2
  let s4 := replaceCharBy '"' "&quot;".data s3
  String.mk (replaceCharBy apost "&apos;".data s4)

/-- The TMX inline wrapper for one classified tag. -/
def tmxInlineFor (t : TagInfo) : List Char :=
  match t.type with
  | .pairedStart =>
      ("<bpt i=\"" ++ Nat.repr t.pairId ++ "\">" ++ escapeXmlContent t.fullTag ++ "</bpt>").data
  | .pairedEnd =>
      ("<ept i=\"" ++ Nat.repr t.pairId ++ "\">" ++ escapeXmlContent t.fullTag ++ "</ept>").data
  | .selfClosing =>
      ("<ph i=\"" ++ Nat.repr t.pairId ++ "\">" ++ escapeXmlContent t.fullTag ++ "</ph>").data
  | .standalone =>
      ("<ph i=\"" ++ Nat.repr t.pairId ++ "\">" ++ escapeXmlContent t.fullTag ++ "</ph>").data

/-- Insertion step for `tags.sort((a, b) => b.index - a.index)` (descending
text order; tag indices are pairwise distinct). -/
def insertByIdxDesc (t : TagInfo) : List TagInfo → List TagInfo
  | [] => [t]
  | u :: us => if t.index ≥ u.index then t :: u :: us else u :: insertByIdxDesc t us

def sortTagsDesc (ts : List TagInfo) : List TagInfo :=
  ts.foldr insertByIdxDesc []

/-- `result.substring(0, index) + tmxInline + result.substring(index + len)`. -/
def applyTagReplacement (result : List Char) (t : TagInfo) : List Char :=
  result.take t.index ++ tmxInlineFor t ++ result.drop (t.index + t.fullTag.data.length)

/-- `convertHtmlTagsToTmxInline(text)` of src/utils/html-tag-parser.ts. -/
def convertHtmlTagsToTmxInline (text : String) : String :=
  let tags := classifyTags (findHtmlTags text)
  String.mk ((sortTagsDesc tags).foldl applyTagReplacement text.data)

/-! ## MemorySerializer identifier (src/utils/tmx-generator.ts: generateTUID) -/

/-- UTF-8 encoding of one character (`TextEncoder`). -/
def utf8EncodeChar (c : Char) : List Nat :=
  let n := c.toNat
  if n < 0x80 then [n]
  else if n < 0x800 then [0xC0 + n / 64, 0x80 + n % 64]
  else if n < 0x10000 then [0xE0 + n / 4096, 0x80 + n / 64 % 64, 0x80 + n % 64]
  else [0xF0 + n / 262144, 0x80 + n / 4096 % 64, 0x80 + n / 64 % 64, 0x80 + n % 64]

/-- `new TextEncoder().encode(str)` as a byte list. -/
def utf8Encode (s : String) : List Nat :=
  s.data.foldr (fun c acc => utf8EncodeChar c ++ acc) []

/-- The base64 alphabet used by `btoa`. -/
def b64Table : List Char :=
  "ABCDEFGHIJKLMNOPQRSTUVWXYZabcdefghijklmnopqrstuvwxyz0123456789+/".data

def b64c (n : Nat) : Char := b64Table.getD n 'A'

/-- Standard base64 of a byte sequence (`btoa` over the binary string). -/
def base64Encode : List Nat → List Char
  | [] => []
  | [b1] => [b64c (b1 / 4), b64c (b1 % 4 * 16), '=', '=']
  | [b1, b2] => [b64c (b1 / 4), b64c (b1 % 4 * 16 + b2 / 16), b64c (b2 % 16 * 4), '=']
  | b1 :: b2 :: b3 :: rest =>
      b64c (b1 / 4) :: b64c (b1 % 4 * 16 + b2 / 16) :: b64c (b2 % 16 * 4 + b3 / 64) ::
        b64c (b3 % 64) :: base64Encode rest

/-- `utf8ToBase64(str)` of tmx-generator. -/
def utf8ToBase64 (s : String) : List Char :=
  base64Encode (utf8Encode s)

/-- `generateTUID(tu)`: base64 of the combined key, with `+`, `=`, `/`
stripped and truncated to 16 characters (`tu.segmentIndex` is tested for JS
truthiness, so 0 behaves like absent). -/
def generateTUID (tu : TranslationUnit) : String :=
  let combined :=
    if tu.segmentIndex.getD 0 ≠ 0 then
      tu.keyPath ++ "_" ++ Nat.repr (tu.segmentIndex.getD 0) ++ "_" ++ tu.sourceText
    else
      tu.keyPath ++ "_" ++ tu.sourceText
  String.mk (((utf8ToBase64 combined).filter
    (fun c => !(c == '+' || c == '=' || c == '/'))).take 16)

/-- The classified tags carrying a given pairing id. -/
def tagsWithId (tags : List TagInfo) (n : Nat) : List TagInfo :=
  tags.filter (fun t => t.pairId == n)

/-- Well-formedness of one pairing id in a classified tag list: unused, used
by exactly one placeholder-like tag, or shared by exactly one begin-pair /
end-pair couple (and nothing else). -/
def pairIdShapeOk (tags : List TagInfo) (n : Nat) : Prop :=
  tagsWithId tags n = [] ∨
  (∃ t, tagsWithId tags n = [t] ∧
    (t.type = TagType.selfClosing ∨ t.type = TagType.standalone)) ∨
  (∃ t1 t2, tagsWithId tags n = [t1, t2] ∧
    t1.type = TagType.pairedStart ∧ t2.type = TagType.pairedEnd)

/-- The sample array `["x", "y", "z"]`. -/
def sampleArray : JsonList :=
  JsonList.cons (Json.str "x") (JsonList.cons (Json.str "y")
    (JsonList.cons (Json.str "z") JsonList.nil))

/-- The inner fields `\x7b b: ["x", "y", "z"] \x7d` of the sample document. -/
def sampleArrayFields : JsonFields :=
  JsonFields.cons "b" (Json.arr sampleArray) JsonFields.nil

/-- The sample document `\x7b a: \x7b b: ["x", "y", "z"] \x7d \x7d`. -/
def sampleArrayDoc : Json :=
  Json.obj (JsonFields.cons "a" (Json.obj sampleArrayFields) JsonFields.nil)

/-- Spine length of a `JsonList` (used to drive list-spine inductions, since
the mutual recursor is unavailable to the induction tactic). -/
def JsonList.length : JsonList → Nat
  | .nil => 0
  | .cons _ tl => tl.length + 1

/-- Spine length of a `JsonFields`. -/
def JsonFields.length : JsonFields → Nat
  | .nil => 0
  | .cons _ _ tl => tl.length + 1

/-- Invariant of the first-pass scan state of `convertHtmlTagsToTmxInline`:
all assigned ids are below the counter, stack ids are distinct, every stack
entry owns exactly one tag — its paired-start opener — and every id not held
by the stack already satisfies the final pairing shape. -/
def scanInv (stack : List StackEntry) (tags : List TagInfo) (ctr : Nat) : Prop :=
  (∀ e ∈ stack, e.id < ctr) ∧
  (∀ t ∈ tags, t.pairId < ctr) ∧
  (stack.map StackEntry.id).Nodup ∧
  (∀ e ∈ stack, ∃ t, tagsWithId tags e.id = [t] ∧ t.type = TagType.pairedStart ∧
    t.index = e.startIndex) ∧
  (∀ n, (∀ e ∈ stack, e.id ≠ n) → pairIdShapeOk tags n)

/-! ## Theorems -/

/-- C8: calling `parseJsonFiles` with an empty source-document list returns
an empty translation-unit list, exactly one error diagnostic, and an empty
missing-key list (and, being a total function, does not throw). -/
theorem parseJsonFiles_empty_sources (targetFiles : List JsonFile) (b : Bool) :
    parseJsonFiles [] targetFiles b = ([], ["No source files provided"], []) := rfl

/-- C1 (failing-input evaluation): on the spec's own example input the code
returns three segments, not two — the enumerator "2." is split off from its
list item because the sentence-ending rule fires on its dot. -/
theorem segmentIntoSentences_colon_enumerator_eval :
    segmentIntoSentences
        "During the past 7 days, how often have you been bothered by:\n2. Your skin condition" =
      ["During the past 7 days, how often have you been bothered by:", "2.",
       "Your skin condition"] := by
  decide

/-- C4 (counterexample): a six-fold ampersand-encoded reference exhausts the
five decoding passes, so `decode(T)` is not a fixed point and
`decode(decode(T)) ≠ decode(T)`. -/
theorem decodeHtmlEntities_not_idempotent_deep :
    decodeHtmlEntities (decodeHtmlEntities "&amp;amp;amp;amp;amp;amp;") ≠
      decodeHtmlEntities "&amp;amp;amp;amp;amp;amp;" := by
  decide

/-- C4 (amended): whenever one further substitution pass leaves
`decodeHtmlEntities text` unchanged — i.e. decoding reached its fixed point
within the default five passes — a second application of the decoder returns
its argument unchanged: `decode(decode(T)) = decode(T)`. -/
theorem decodeHtmlEntities_idempotent_of_fixedpoint (text : String)
    (h : decodePass (decodeHtmlEntities text).data = (decodeHtmlEntities text).data) :
    decodeHtmlEntities (decodeHtmlEntities text) = decodeHtmlEntities text := by
  by_cases hs : decodeHtmlEntities text = ""
  · rw [hs]
    rfl
  · have hd : (decodeHtmlEntities text).data ≠ [] := by
      intro hnil
      exact hs (String.ext (by rw [hnil]))
    conv_lhs => rw [decodeHtmlEntities, if_neg hs]
    show String.mk (decodeGo 5 [] (decodeHtmlEntities text).data) = _
    rw [decodeGo, if_neg hd, decodeGo, h, if_pos rfl]

/-- C4 (witness): the spec's double-encoded example reaches its fixed point,
so the amended idempotence applies to it. -/
theorem decodeHtmlEntities_idempotent_witness :
    decodePass (decodeHtmlEntities "&amp;rsquo;").data = (decodeHtmlEntities "&amp;rsquo;").data ∧
      decodeHtmlEntities (decodeHtmlEntities "&amp;rsquo;") = decodeHtmlEntities "&amp;rsquo;" :=
  ⟨by decide, decodeHtmlEntities_idempotent_of_fixedpoint "&amp;rsquo;" (by decide)⟩

/-- C6: for every non-empty input, `segmentIntoSentences` returns a non-empty
sequence; in particular it returns the original text as a singleton when
normalization yields the empty string or when no segment survives restoration
and filtering. -/
theorem segmentIntoSentences_nonempty (text : String) (h : text ≠ "") :
    segmentIntoSentences text ≠ [] ∧
      (normalizeText text.data = [] → segmentIntoSentences text = [text]) ∧
      (segmentCore (normalizeText text.data) = [] → segmentIntoSentences text = [text]) := by
  unfold segmentIntoSentences
  rw [if_neg h]
  refine ⟨?_, ?_, ?_⟩
  · by_cases h1 : (normalizeText text.data).isEmpty
    · simp [h1]
    · simp only [h1, Bool.false_eq_true, if_false]
      by_cases h2 : (segmentCore (normalizeText text.data)).isEmpty
      · simp [h2]
      · simp only [h2, Bool.false_eq_true, if_false]
        intro hmap
        rw [List.map_eq_nil_iff] at hmap
        rw [hmap] at h2
        simp at h2
  · intro h1
    simp [h1, List.isEmpty_nil]
  · intro h2
    by_cases h1 : (normalizeText text.data).isEmpty
    · simp [h1]
    · simp [h1, h2, List.isEmpty_nil]

/-- C6 (witness): a concrete non-empty input. -/
theorem segmentIntoSentences_nonempty_witness :
    ("One. Two." : String) ≠ "" ∧
      (segmentIntoSentences "One. Two." ≠ [] ∧
        (normalizeText ("One. Two." : String).data = [] →
          segmentIntoSentences "One. Two." = ["One. Two."]) ∧
        (segmentCore (normalizeText ("One. Two." : String).data) = [] →
          segmentIntoSentences "One. Two." = ["One. Two."])) :=
  ⟨by decide, segmentIntoSentences_nonempty "One. Two." (by decide)⟩

/-- C9: when the tag scan finds no match of the tag grammar in the input —
i.e. the text contains no angle-bracket tag substring — the rewrite pass has
nothing to replace and `convertHtmlTagsToTmxInline` returns the input
unchanged. -/
theorem convertHtmlTagsToTmxInline_id_of_tagfree (text : String)
    (h : findHtmlTags text = []) :
    convertHtmlTagsToTmxInline text = text := by
  unfold convertHtmlTagsToTmxInline
  rw [h]
  rfl

/-- C9 (witness): a concrete tag-free text. -/
theorem convertHtmlTagsToTmxInline_id_witness :
    findHtmlTags "hello world" = [] ∧
      convertHtmlTagsToTmxInline "hello world" = "hello world" :=
  ⟨by decide, convertHtmlTagsToTmxInline_id_of_tagfree "hello world" (by decide)⟩

theorem b64Table_chars :
    b64Table.all (fun c => Char.isAlphanum c || c == '+' || c == '/') = true := by decide

theorem b64c_mem (n : Nat) : b64c n ∈ b64Table := by
  unfold b64c List.getD
  cases h : b64Table.get? n with
  | none => simp only [Option.getD_none]; decide
  | some c => simp only [Option.getD_some]; exact List.get?_mem h

theorem base64Encode_mem (bs : List Nat) :
    ∀ c ∈ base64Encode bs, c ∈ b64Table ∨ c = '=' := by
  induction bs using base64Encode.induct with
  | case1 => intro c hc; simp [base64Encode] at hc
  | case2 b1 =>
      intro c hc
      simp only [base64Encode, List.mem_cons, List.not_mem_nil, or_false] at hc
      rcases hc with h | h | h | h
      all_goals first
        | (left; rw [h]; exact b64c_mem _)
        | (right; exact h)
  | case3 b1 b2 =>
      intro c hc
      simp only [base64Encode, List.mem_cons, List.not_mem_nil, or_false] at hc
      rcases hc with h | h | h | h
      all_goals first
        | (left; rw [h]; exact b64c_mem _)
        | (right; exact h)
  | case4 b1 b2 b3 rest ih =>
      intro c hc
      simp only [base64Encode, List.mem_cons] at hc
      rcases hc with h | h | h | h | h
      · left; rw [h]; exact b64c_mem _
      · left; rw [h]; exact b64c_mem _
      · left; rw [h]; exact b64c_mem _
      · left; rw [h]; exact b64c_mem _
      · exact ih c h

/-- C10: `generateTUID` always returns at most 16 characters, all of them
alphanumeric — the base64 padding, plus and slash characters are stripped
before truncation. -/
theorem generateTUID_short_alnum (tu : TranslationUnit) :
    (generateTUID tu).length ≤ 16 ∧ (generateTUID tu).data.all Char.isAlphanum = true := by
  constructor
  · show (((utf8ToBase64 _).filter _).take 16).length ≤ 16
    exact List.length_take_le 16 _
  · show (((utf8ToBase64 _).filter
      (fun c => !(c == '+' || c == '=' || c == '/'))).take 16).all Char.isAlphanum = true
    rw [List.all_eq_true]
    intro c hc
    have h1 : c ∈ (utf8ToBase64 _).filter (fun c => !(c == '+' || c == '=' || c == '/')) :=
      List.take_subset 16 _ hc
    have h2 := List.mem_filter.mp h1
    obtain ⟨hmem, hkeep⟩ := h2
    simp only [Bool.not_eq_true', Bool.or_eq_false_iff, beq_eq_false_iff_ne, ne_eq] at hkeep
    obtain ⟨⟨hplus, heq⟩, hslash⟩ := hkeep
    rcases base64Encode_mem _ c hmem with ht | hpad
    · have := List.all_eq_true.mp b64Table_chars c ht
      simp only [Bool.or_eq_true, beq_iff_eq] at this
      rcases this with (h | h) | h
      · exact h
      · exact absurd h hplus
      · exact absurd h hslash
    · exact absurd hpad heq

theorem processEntry_key_segment_empty :
    segmentIntoSentences "" = [""] := rfl

/-- C5: when segmentation is enabled, the source value yields more than one
segment, the matched target text is non-empty and the two segment counts
differ, the per-key processing emits exactly one unsegmented translation unit
(segmentIndex and totalSegments absent) and no extra diagnostics — the key
path is neither dropped nor partially aligned. -/
theorem processEntry_mismatch_single_unsegmented
    (sourceFileName targetFileName key sourceText : String) (targetFlat : Record)
    (h1 : (recordGet targetFlat key).getD "" ≠ "")
    (h2 : 1 < (segmentIntoSentences sourceText).length)
    (h3 : (segmentIntoSentences sourceText).length ≠
      (segmentIntoSentences ((recordGet targetFlat key).getD "")).length) :
    processEntry true sourceFileName targetFileName targetFlat key sourceText =
      ([⟨sourceText, (recordGet targetFlat key).getD "", key, sourceFileName, none, none⟩],
       []) := by
  have hsrc : sourceText ≠ "" := by
    intro hs
    rw [hs, processEntry_key_segment_empty] at h2
    simp at h2
  have hlen : sourceText.length > 0 := by
    cases hl : sourceText.length with
    | zero =>
        exact absurd (String.ext (List.length_eq_zero.mp hl)) hsrc
    | succ n => exact Nat.succ_pos n
  simp [processEntry, h1, h2, h3, hlen]

/-- C5 (witness): a concrete two-segment source against a one-segment
target. -/
theorem processEntry_mismatch_witness :
    (recordGet [("k", "Uno")] "k").getD "" ≠ "" ∧
      1 < (segmentIntoSentences "One. Two.").length ∧
      (segmentIntoSentences "One. Two.").length ≠
        (segmentIntoSentences ((recordGet [("k", "Uno")] "k").getD "")).length ∧
      processEntry true "s.json" "t.json" [("k", "Uno")] "k" "One. Two." =
        ([⟨"One. Two.", (recordGet [("k", "Uno")] "k").getD "", "k", "s.json", none, none⟩],
         []) :=
  ⟨by decide, by decide, by decide,
   processEntry_mismatch_single_unsegmented "s.json" "t.json" "k" "One. Two." [("k", "Uno")]
     (by decide) (by decide) (by decide)⟩


theorem recordHasKey_cons (k' v' k0 : String) (rest : Record) :
    recordHasKey ((k', v') :: rest) k0 = ((k' == k0) || recordHasKey rest k0) := by
  simp [recordHasKey]

theorem recordHasKey_insert_self (items : Record) (k v : String) :
    recordHasKey (recordInsert items k v) k = true := by
  induction items with
  | nil => simp [recordInsert, recordHasKey]
  | cons p rest ih =>
      obtain ⟨k', v'⟩ := p
      by_cases h : k' = k
      · simp [recordInsert, h, recordHasKey_cons]
      · simp only [recordInsert, if_neg h]
        rw [recordHasKey_cons, Bool.or_eq_true]
        exact Or.inr ih

theorem recordHasKey_insert_mono (k v k0 : String) :
    ∀ items : Record, recordHasKey items k0 = true →
      recordHasKey (recordInsert items k v) k0 = true := by
  intro items
  induction items with
  | nil => intro h; simp [recordHasKey] at h
  | cons p rest ih =>
      intro h
      obtain ⟨k', v'⟩ := p
      rw [recordHasKey_cons] at h
      by_cases hk : k' = k
      · simp only [recordInsert, if_pos hk]
        rw [recordHasKey_cons]
        exact h
      · simp only [recordInsert, if_neg hk]
        rw [recordHasKey_cons, Bool.or_eq_true]
        rw [Bool.or_eq_true] at h
        rcases h with h1 | h2
        · exact Or.inl h1
        · exact Or.inr (ih h2)

theorem recordHasKey_assign_mono (sub : Record) :
    ∀ (items : Record) (k0 : String), recordHasKey items k0 = true →
      recordHasKey (recordAssign items sub) k0 = true := by
  induction sub with
  | nil => intro items k0 h; simpa [recordAssign] using h
  | cons p rest ih =>
      intro items k0 h
      show recordHasKey (List.foldl _ (recordInsert items p.1 p.2) rest) k0 = true
      exact ih _ _ (recordHasKey_insert_mono _ _ _ _ h)

theorem recordHasKey_assign_of_sub (sub : Record) :
    ∀ (items : Record) (k0 : String), recordHasKey sub k0 = true →
      recordHasKey (recordAssign items sub) k0 = true := by
  induction sub with
  | nil => intro items k0 h; simp [recordHasKey] at h
  | cons p rest ih =>
      intro items k0 h
      obtain ⟨k1, v1⟩ := p
      rw [recordHasKey_cons, Bool.or_eq_true] at h
      show recordHasKey (List.foldl _ (recordInsert items k1 v1) rest) k0 = true
      rcases h with h1 | h2
      · have hk : k1 = k0 := beq_iff_eq.mp h1
        subst hk
        exact recordHasKey_assign_mono rest _ _ (recordHasKey_insert_self _ _ _)
      · exact ih _ _ h2

theorem flattenArrItems_mono (newKey : String) :
    ∀ (n : Nat) (xs : JsonList) (idx : Nat) (items : Record) (k0 : String),
      xs.length = n →
      recordHasKey items k0 = true →
      recordHasKey (flattenArrItems newKey idx xs items) k0 = true := by
  intro n
  induction n with
  | zero =>
      intro xs idx items k0 hn h
      cases xs with
      | nil => simpa [flattenArrItems] using h
      | cons item rest => simp [JsonList.length] at hn
  | succ n ihn =>
      intro xs idx items k0 hn h
      cases xs with
      | nil => simpa [flattenArrItems] using h
      | cons item rest =>
          show recordHasKey (flattenArrItems newKey (idx + 1) rest
            (recordAssign items (flattenEntry newKey (Nat.repr idx) item []))) k0 = true
          exact ihn rest _ _ _ (by simpa [JsonList.length] using hn)
            (recordHasKey_assign_mono _ _ _ h)

theorem flattenEntry_mono (pk key : String) (v : Json) (items : Record) (k0 : String)
    (h : recordHasKey items k0 = true) :
    recordHasKey (flattenEntry pk key v items) k0 = true := by
  cases v with
  | obj fs => exact recordHasKey_assign_mono _ _ _ h
  | arr xs => exact flattenArrItems_mono _ _ _ _ _ _ rfl h
  | str s => exact recordHasKey_insert_mono _ _ _ _ h
  | num n => exact h
  | bool b => exact h
  | null => exact h

theorem flattenFields_mono :
    ∀ (n : Nat) (fields : JsonFields) (pk : String) (items : Record) (k0 : String),
      fields.length = n →
      recordHasKey items k0 = true →
      recordHasKey (flattenFields fields pk items) k0 = true := by
  intro n
  induction n with
  | zero =>
      intro fields pk items k0 hn h
      cases fields with
      | nil => simpa [flattenFields] using h
      | cons k v rest => simp [JsonFields.length] at hn
  | succ n ihn =>
      intro fields pk items k0 hn h
      cases fields with
      | nil => simpa [flattenFields] using h
      | cons k v rest =>
          show recordHasKey (flattenFields rest pk (flattenEntry pk k v items)) k0 = true
          exact ihn rest _ _ _ (by simpa [JsonFields.length] using hn)
            (flattenEntry_mono _ _ _ _ _ h)

theorem flattenArrItems_hasKey (newKey : String) :
    ∀ (n : Nat) (xs : JsonList) (idx i : Nat) (s : String) (items : Record),
      xs.length = n →
      xs.get? i = some (Json.str s) →
      recordHasKey (flattenArrItems newKey idx xs items)
        (joinKey newKey (Nat.repr (idx + i))) = true := by
  intro n
  induction n with
  | zero =>
      intro xs idx i s items hn hg
      cases xs with
      | nil => simp [JsonList.get?] at hg
      | cons item rest => simp [JsonList.length] at hn
  | succ n ihn =>
      intro xs idx i s items hn hg
      cases xs with
      | nil => simp [JsonList.get?] at hg
      | cons item rest =>
          cases i with
          | zero =>
              have hitem : item = Json.str s := by
                simpa [JsonList.get?] using hg
              subst hitem
              show recordHasKey (flattenArrItems newKey (idx + 1) rest
                (recordAssign items (flattenEntry newKey (Nat.repr idx) (Json.str s) [])))
                (joinKey newKey (Nat.repr (idx + 0))) = true
              have hentry : flattenEntry newKey (Nat.repr idx) (Json.str s) [] =
                  [(joinKey newKey (Nat.repr idx), s)] := rfl
              have base : recordHasKey
                  (recordAssign items (flattenEntry newKey (Nat.repr idx) (Json.str s) []))
                  (joinKey newKey (Nat.repr idx)) = true := by
                rw [hentry]
                exact recordHasKey_assign_of_sub _ _ _ (by simp [recordHasKey])
              have := flattenArrItems_mono newKey rest.length rest (idx + 1) _ _ rfl base
              simpa using this
          | succ i' =>
              have hg' : rest.get? i' = some (Json.str s) := by
                simpa [JsonList.get?] using hg
              have harith : idx + (i' + 1) = (idx + 1) + i' := by omega
              rw [harith]
              exact ihn rest (idx + 1) i' s _ (by simpa [JsonList.length] using hn) hg'

theorem flattenFields_array_hasKey :
    ∀ (n : Nat) (fields : JsonFields) (pk : String) (items : Record) (k : String)
      (xs : JsonList) (i : Nat) (s : String),
      fields.length = n →
      (k, Json.arr xs) ∈ fields.toList →
      xs.get? i = some (Json.str s) →
      recordHasKey (flattenFields fields pk items)
        (joinKey (joinKey pk k) (Nat.repr i)) = true := by
  intro n
  induction n with
  | zero =>
      intro fields pk items k xs i s hn hmem hg
      cases fields with
      | nil => simp [JsonFields.toList] at hmem
      | cons k0 v0 rest => simp [JsonFields.length] at hn
  | succ n ihn =>
      intro fields pk items k xs i s hn hmem hg
      cases fields with
      | nil => simp [JsonFields.toList] at hmem
      | cons k0 v0 rest =>
          simp only [JsonFields.toList, List.mem_cons, Prod.mk.injEq] at hmem
          rcases hmem with ⟨hk, hv⟩ | hmem
          · subst hk
            subst hv
            show recordHasKey (flattenFields rest pk (flattenEntry pk k (Json.arr xs) items))
              (joinKey (joinKey pk k) (Nat.repr i)) = true
            apply flattenFields_mono rest.length rest pk _ _ rfl
            show recordHasKey (flattenArrItems (joinKey pk k) 0 xs items)
              (joinKey (joinKey pk k) (Nat.repr i)) = true
            have := flattenArrItems_hasKey (joinKey pk k) xs.length xs 0 i s items rfl hg
            simpa using this
          · exact ihn rest _ _ _ _ _ _ (by simpa [JsonFields.length] using hn) hmem hg

/-- C2 (counterexample): on the document `\x7b a: \x7b b: ["x","y","z"] \x7d \x7d`
the flattening addresses the array elements with dotted indices
(`a.b.0`, `a.b.1`, `a.b.2`); the bracketed key path `a.b[2]` of the claim
does not occur. -/
theorem flattenJSON_dotted_not_bracketed :
    flattenJSON sampleArrayDoc = [("a.b.0", "x"), ("a.b.1", "y"), ("a.b.2", "z")] ∧
      recordHasKey (flattenJSON sampleArrayDoc) "a.b[2]" = false := by decide

/-- C2 (amended): for every document content, `flattenJSON` maps each string
element of an array to a key path in which the array index appears as an
additional dotted segment — the third element of array `b` nested under `a`
is addressed as `a.b.2`, not `a.b[2]`. -/
theorem flattenJSON_array_index_dotted (fields : JsonFields) (pk k : String)
    (xs : JsonList) (i : Nat) (s : String)
    (hmem : (k, Json.arr xs) ∈ fields.toList)
    (hget : xs.get? i = some (Json.str s)) :
    recordHasKey (flattenJSON (Json.obj fields) pk)
      (joinKey (joinKey pk k) (Nat.repr i)) = true := by
  show recordHasKey (flattenFields fields pk []) _ = true
  exact flattenFields_array_hasKey fields.length fields pk [] k xs i s rfl hmem hget

/-- C2 (witness): the sample array field under parent key `a`. -/
theorem flattenJSON_array_index_dotted_witness :
    ("b", Json.arr sampleArray) ∈ sampleArrayFields.toList ∧
      sampleArray.get? 2 = some (Json.str "z") ∧
      recordHasKey (flattenJSON (Json.obj sampleArrayFields) "a")
        (joinKey (joinKey "a" "b") (Nat.repr 2)) = true :=
  ⟨List.mem_cons_self _ _, rfl,
   flattenJSON_array_index_dotted sampleArrayFields "a" "b" sampleArray 2 "z"
     (List.mem_cons_self _ _) rfl⟩

theorem splitFirst_spec :
    ∀ (stack : List StackEntry) (name : String),
      (∃ e ∈ stack, e.tagName = name) →
      ∃ pre e post, splitFirst stack name = some (pre, e, post) ∧
        stack = pre ++ e :: post ∧ e.tagName = name ∧
        ∀ e' ∈ pre, e'.tagName ≠ name := by
  intro stack
  induction stack with
  | nil => intro name h; simp at h
  | cons e0 rest ih =>
      intro name h
      by_cases h0 : e0.tagName = name
      · exact ⟨[], e0, rest, by simp [splitFirst, h0], by simp, h0, by simp⟩
      · have hrest : ∃ e ∈ rest, e.tagName = name := by
          rcases h with ⟨e, he, hn⟩
          rcases List.mem_cons.mp he with rfl | hm
          · exact absurd hn h0
          · exact ⟨e, hm, hn⟩
        obtain ⟨pre, e, post, hsf, hdecomp, hname, hpre⟩ := ih name hrest
        refine ⟨e0 :: pre, e, post, ?_, ?_, hname, ?_⟩
        · simp [splitFirst, h0, hsf]
        · rw [List.cons_append, ← hdecomp]
        · intro e' he'
          rcases List.mem_cons.mp he' with rfl | hm
          · exact h0
          · exact hpre e' hm

/-- C3 (amended): when a closing tag is encountered and at least one
currently-open tag with the same name is on the open-tag stack, the closing
tag is paired with (and pops) the LEAST recently pushed open tag of that name
— the first match when scanning the stack from its bottom, as
`Array.prototype.findIndex` does — and the two share that opener's pairing
id. -/
theorem closing_tag_pairs_with_earliest (stack : List StackEntry) (tags : List TagInfo)
    (ctr : Nat) (r : RawTag)
    (hsc : isSelfClosingTag r.fullTag = false)
    (hcl : isClosingTag r.fullTag = true)
    (hex : ∃ e ∈ stack, e.tagName = r.tagName) :
    ∃ pre e post, stack = pre ++ e :: post ∧ e.tagName = r.tagName ∧
      (∀ e' ∈ pre, e'.tagName ≠ r.tagName) ∧
      classifyStep (stack, tags, ctr) r =
        (pre ++ post,
         tags ++ [⟨TagType.pairedEnd, r.fullTag, r.tagName, r.index, e.id⟩], ctr) := by
  obtain ⟨pre, e, post, hsf, hdecomp, hname, hpre⟩ := splitFirst_spec stack r.tagName hex
  refine ⟨pre, e, post, hdecomp, hname, hpre, ?_⟩
  simp [classifyStep, hsc, hcl, hsf]

/-- C3 (witness): a stack holding two open `b` tags (ids 1 and 2, pushed in
that order) against the closer `</b>`. -/
theorem closing_tag_pairs_with_earliest_witness :
    ∃ pre e post,
      ([⟨"b", 1, 0⟩, ⟨"b", 2, 3⟩] : List StackEntry) = pre ++ e :: post ∧
      e.tagName = (⟨"</b>", "b", 6⟩ : RawTag).tagName ∧
      (∀ e' ∈ pre, e'.tagName ≠ (⟨"</b>", "b", 6⟩ : RawTag).tagName) ∧
      classifyStep ([⟨"b", 1, 0⟩, ⟨"b", 2, 3⟩], [], 3) ⟨"</b>", "b", 6⟩ =
        (pre ++ post,
         [] ++ [⟨TagType.pairedEnd, "</b>", "b", 6, e.id⟩], 3) :=
  closing_tag_pairs_with_earliest [⟨"b", 1, 0⟩, ⟨"b", 2, 3⟩] [] 3 ⟨"</b>", "b", 6⟩
    (by decide) (by decide) ⟨⟨"b", 1, 0⟩, by simp, rfl⟩

/-- C3 (counterexample): on `<b><b></b>` the closer is paired with the FIRST
(least recently pushed) opener and shares its id 1, while the most recently
pushed opener (id 2) remains unclosed and is demoted to a standalone
placeholder — refuting pairing with the most recently pushed opener. -/
theorem classifyTags_pairs_first_not_most_recent :
    classifyTags (findHtmlTags "<b><b></b>") =
      [⟨TagType.pairedStart, "<b>", "b", 0, 1⟩,
       ⟨TagType.standalone, "<b>", "b", 3, 2⟩,
       ⟨TagType.pairedEnd, "</b>", "b", 6, 1⟩] := by decide

theorem ctr_ne_of_lt {ctr m : Nat} (h : m < ctr) : ctr ≠ m :=
  fun hh => absurd h (by rw [hh]; exact Nat.lt_irrefl m)

theorem tagsWithId_append (tags : List TagInfo) (t : TagInfo) (n : Nat) :
    tagsWithId (tags ++ [t]) n =
      tagsWithId tags n ++ (if t.pairId = n then [t] else []) := by
  by_cases h : t.pairId = n <;>
    simp [tagsWithId, List.filter_append, List.filter_cons, h]

theorem tagsWithId_eq_nil_of_lt (tags : List TagInfo) (n : Nat)
    (h : ∀ t ∈ tags, t.pairId < n) : tagsWithId tags n = [] := by
  rw [tagsWithId, List.filter_eq_nil_iff]
  intro t ht
  simp only [beq_iff_eq]
  exact Nat.ne_of_lt (h t ht)

theorem pairId_of_mem_tagsWithId {tags : List TagInfo} {t : TagInfo} {n : Nat}
    (h : t ∈ tagsWithId tags n) : t.pairId = n := by
  have := (List.mem_filter.mp h).2
  simpa using this

theorem mem_of_mem_tagsWithId {tags : List TagInfo} {t : TagInfo} {n : Nat}
    (h : t ∈ tagsWithId tags n) : t ∈ tags :=
  (List.mem_filter.mp h).1

theorem scanInv_append_fresh (stack : List StackEntry) (tags : List TagInfo) (ctr : Nat)
    (t : TagInfo) (hid : t.pairId = ctr)
    (hty : t.type = TagType.selfClosing ∨ t.type = TagType.standalone)
    (hinv : scanInv stack tags ctr) :
    scanInv stack (tags ++ [t]) (ctr + 1) := by
  obtain ⟨hlt, htlt, hnodup, hstk, hshape⟩ := hinv
  refine ⟨fun e he => Nat.lt_succ_of_lt (hlt e he), ?_, hnodup, ?_, ?_⟩
  · intro u hu
    rcases List.mem_append.mp hu with h | h
    · exact Nat.lt_succ_of_lt (htlt u h)
    · rw [List.mem_singleton.mp h, hid]
      exact Nat.lt_succ_self ctr
  · intro e he
    obtain ⟨u, hu, huty, huidx⟩ := hstk e he
    refine ⟨u, ?_, huty, huidx⟩
    rw [tagsWithId_append, if_neg (by rw [hid]; exact ctr_ne_of_lt (hlt e he)),
      List.append_nil, hu]
  · intro n hn
    by_cases hcn : n = ctr
    · subst hcn
      right
      left
      refine ⟨t, ?_, hty⟩
      rw [tagsWithId_append, if_pos hid, tagsWithId_eq_nil_of_lt tags _ htlt, List.nil_append]
    · have hold := hshape n hn
      unfold pairIdShapeOk at hold ⊢
      rw [tagsWithId_append, if_neg (by rw [hid]; exact fun hh => hcn hh.symm), List.append_nil]
      exact hold

theorem scanInv_push_open (stack : List StackEntry) (tags : List TagInfo) (ctr : Nat)
    (r : RawTag) (hinv : scanInv stack tags ctr) :
    scanInv (stack ++ [⟨r.tagName, ctr, r.index⟩])
      (tags ++ [⟨TagType.pairedStart, r.fullTag, r.tagName, r.index, ctr⟩]) (ctr + 1) := by
  obtain ⟨hlt, htlt, hnodup, hstk, hshape⟩ := hinv
  refine ⟨?_, ?_, ?_, ?_, ?_⟩
  · intro e he
    rcases List.mem_append.mp he with h | h
    · exact Nat.lt_succ_of_lt (hlt e h)
    · rw [List.mem_singleton.mp h]
      exact Nat.lt_succ_self ctr
  · intro u hu
    rcases List.mem_append.mp hu with h | h
    · exact Nat.lt_succ_of_lt (htlt u h)
    · rw [List.mem_singleton.mp h]
      exact Nat.lt_succ_self ctr
  · rw [List.map_append, List.nodup_append]
    refine ⟨hnodup, List.nodup_singleton _, ?_⟩
    intro a ha hb
    rcases List.mem_map.mp ha with ⟨e, he, rfl⟩
    have : e.id = ctr := by simpa using hb
    exact Nat.lt_irrefl ctr (this ▸ hlt e he)
  · intro e he
    rcases List.mem_append.mp he with h | h
    · obtain ⟨u, hu, huty, huidx⟩ := hstk e h
      refine ⟨u, ?_, huty, huidx⟩
      rw [tagsWithId_append,
        if_neg (ctr_ne_of_lt (hlt e h)), List.append_nil, hu]
    · rw [List.mem_singleton.mp h]
      refine ⟨⟨TagType.pairedStart, r.fullTag, r.tagName, r.index, ctr⟩, ?_, rfl, rfl⟩
      rw [tagsWithId_append, if_pos rfl, tagsWithId_eq_nil_of_lt tags ctr htlt, List.nil_append]
  · intro n hn
    have hnc : ctr ≠ n := hn ⟨r.tagName, ctr, r.index⟩ (by simp)
    have hold := hshape n (fun e he => hn e (List.mem_append_left _ he))
    unfold pairIdShapeOk at hold ⊢
    rw [tagsWithId_append, if_neg hnc, List.append_nil]
    exact hold

theorem splitFirst_decomp :
    ∀ (stack : List StackEntry) (name : String) (pre post : List StackEntry) (e : StackEntry),
      splitFirst stack name = some (pre, e, post) → stack = pre ++ e :: post := by
  intro stack
  induction stack with
  | nil => intro name pre post e h; simp [splitFirst] at h
  | cons e0 rest ih =>
      intro name pre post e h
      by_cases h0 : e0.tagName = name
      · rw [splitFirst, if_pos h0] at h
        cases h
        rfl
      · rw [splitFirst, if_neg h0] at h
        cases hrec : splitFirst rest name with
        | none => rw [hrec] at h; simp at h
        | some trip =>
            obtain ⟨pre1, e1, post1⟩ := trip
            rw [hrec] at h
            simp only [Option.some.injEq, Prod.mk.injEq] at h
            obtain ⟨h1, h2, h3⟩ := h
            subst h1
            subst h2
            subst h3
            rw [List.cons_append, ← ih name pre1 post1 e1 hrec]

theorem scanInv_close_pair (stack : List StackEntry) (tags : List TagInfo) (ctr : Nat)
    (r : RawTag) (pre post : List StackEntry) (e : StackEntry)
    (hdecomp : stack = pre ++ e :: post)
    (hinv : scanInv stack tags ctr) :
    scanInv (pre ++ post)
      (tags ++ [⟨TagType.pairedEnd, r.fullTag, r.tagName, r.index, e.id⟩]) ctr := by
  obtain ⟨hlt, htlt, hnodup, hstk, hshape⟩ := hinv
  subst hdecomp
  have hemem : e ∈ pre ++ e :: post := by simp
  have heid : e.id < ctr := hlt e hemem
  have hnotin : e.id ∉ (pre ++ post).map StackEntry.id := by
    have h1 : ((pre ++ e :: post).map StackEntry.id) =
        pre.map StackEntry.id ++ e.id :: post.map StackEntry.id := by simp
    rw [h1] at hnodup
    have h2 := (List.nodup_cons.mp (List.nodup_middle.mp hnodup)).1
    simpa using h2
  have hmemsub : ∀ e' ∈ pre ++ post, e' ∈ pre ++ e :: post := by
    intro e' he'
    rcases List.mem_append.mp he' with h | h
    · exact List.mem_append_left _ h
    · exact List.mem_append_right _ (List.mem_cons_of_mem _ h)
  have hneid : ∀ e' ∈ pre ++ post, e'.id ≠ e.id := by
    intro e' he' hh
    exact hnotin (hh ▸ List.mem_map_of_mem StackEntry.id he')
  refine ⟨?_, ?_, ?_, ?_, ?_⟩
  · intro e' he'
    exact hlt e' (hmemsub e' he')
  · intro u hu
    rcases List.mem_append.mp hu with h | h
    · exact htlt u h
    · rw [List.mem_singleton.mp h]
      exact heid
  · have hsub : List.Sublist ((pre ++ post).map StackEntry.id)
        ((pre ++ e :: post).map StackEntry.id) := by
      simp only [List.map_append, List.map_cons]
      exact (List.Sublist.cons e.id (List.Sublist.refl _)).append_left _
    exact hnodup.sublist hsub
  · intro e' he'
    obtain ⟨u, hu, huty, huidx⟩ := hstk e' (hmemsub e' he')
    refine ⟨u, ?_, huty, huidx⟩
    rw [tagsWithId_append, if_neg (Ne.symm (hneid e' he')), List.append_nil, hu]
  · intro n hn
    by_cases hne : n = e.id
    · subst hne
      right
      right
      obtain ⟨u, hu, huty, huidx⟩ := hstk e hemem
      refine ⟨u, ⟨TagType.pairedEnd, r.fullTag, r.tagName, r.index, e.id⟩, ?_, huty, rfl⟩
      rw [tagsWithId_append, if_pos rfl, hu]
      rfl
    · have hn' : ∀ e' ∈ pre ++ e :: post, e'.id ≠ n := by
        intro e' he'
        rcases List.mem_append.mp he' with h | h
        · exact hn e' (List.mem_append_left _ h)
        · rcases List.mem_cons.mp h with rfl | h2
          · exact fun hh => hne hh.symm
          · exact hn e' (List.mem_append_right _ h2)
      have hold := hshape n hn'
      unfold pairIdShapeOk at hold ⊢
      rw [tagsWithId_append, if_neg (fun hh => hne (Eq.symm hh)), List.append_nil]
      exact hold

theorem classifyStep_inv (stack : List StackEntry) (tags : List TagInfo) (ctr : Nat)
    (r : RawTag) (hinv : scanInv stack tags ctr) :
    scanInv (classifyStep (stack, tags, ctr) r).1 (classifyStep (stack, tags, ctr) r).2.1
      (classifyStep (stack, tags, ctr) r).2.2 ∧
    (classifyStep (stack, tags, ctr) r).2.1.map TagInfo.index =
      tags.map TagInfo.index ++ [r.index] := by
  by_cases hsc : isSelfClosingTag r.fullTag = true
  · simp only [classifyStep, hsc, if_true]
    exact ⟨scanInv_append_fresh _ _ _ _ rfl (Or.inl rfl) hinv, by simp⟩
  · have hsc' : isSelfClosingTag r.fullTag = false := by
      revert hsc
      cases isSelfClosingTag r.fullTag <;> simp
    by_cases hcl : isClosingTag r.fullTag = true
    · cases hsf : splitFirst stack r.tagName with
      | some trip =>
          obtain ⟨pre, e, post⟩ := trip
          simp only [classifyStep, hsc', hcl, hsf, Bool.false_eq_true, if_false, if_true]
          have hdecomp := splitFirst_decomp stack r.tagName pre post e hsf
          exact ⟨scanInv_close_pair stack tags ctr r pre post e hdecomp hinv, by simp⟩
      | none =>
          simp only [classifyStep, hsc', hcl, hsf, Bool.false_eq_true, if_false, if_true]
          exact ⟨scanInv_append_fresh _ _ _ _ rfl (Or.inr rfl) hinv, by simp⟩
    · have hcl' : isClosingTag r.fullTag = false := by
        revert hcl
        cases isClosingTag r.fullTag <;> simp
      by_cases hv : standaloneTagNames.contains (String.mk (toLowerList r.tagName.data)) = true
      · simp only [classifyStep, hsc', hcl', hv, Bool.false_eq_true, if_false, if_true]
        exact ⟨scanInv_append_fresh _ _ _ _ rfl (Or.inr rfl) hinv, by simp⟩
      · have hv' : standaloneTagNames.contains (String.mk (toLowerList r.tagName.data)) = false := by
          revert hv
          cases standaloneTagNames.contains (String.mk (toLowerList r.tagName.data)) <;> simp
        simp only [classifyStep, hsc', hcl', hv', Bool.false_eq_true, if_false]
        exact ⟨scanInv_push_open _ _ _ _ hinv, by simp⟩

theorem classifyFold_inv :
    ∀ (raws : List RawTag) (stack : List StackEntry) (tags : List TagInfo) (ctr : Nat),
      scanInv stack tags ctr →
      scanInv (List.foldl classifyStep (stack, tags, ctr) raws).1
        (List.foldl classifyStep (stack, tags, ctr) raws).2.1
        (List.foldl classifyStep (stack, tags, ctr) raws).2.2 ∧
      (List.foldl classifyStep (stack, tags, ctr) raws).2.1.map TagInfo.index =
        tags.map TagInfo.index ++ raws.map RawTag.index := by
  intro raws
  induction raws with
  | nil =>
      intro stack tags ctr hinv
      exact ⟨hinv, by simp⟩
  | cons r rest ih =>
      intro stack tags ctr hinv
      obtain ⟨hinv', hmap'⟩ := classifyStep_inv stack tags ctr r hinv
      have ih' := ih (classifyStep (stack, tags, ctr) r).1
        (classifyStep (stack, tags, ctr) r).2.1 (classifyStep (stack, tags, ctr) r).2.2 hinv'
      rw [List.foldl_cons]
      constructor
      · exact ih'.1
      · rw [show List.foldl classifyStep (classifyStep (stack, tags, ctr) r) rest =
          List.foldl classifyStep ((classifyStep (stack, tags, ctr) r).1,
            (classifyStep (stack, tags, ctr) r).2.1,
            (classifyStep (stack, tags, ctr) r).2.2) rest from rfl]
        rw [ih'.2, hmap']
        simp

theorem tagsWithId_decomp (l1 l2 : List TagInfo) (t : TagInfo) (n : Nat) :
    tagsWithId (l1 ++ t :: l2) n =
      tagsWithId l1 n ++ (if t.pairId = n then [t] else []) ++ tagsWithId l2 n := by
  by_cases h : t.pairId = n <;>
    simp [tagsWithId, List.filter_append, List.filter_cons, h]

theorem append_middle_singleton {α : Type} {l1 l2 : List α} {a b : α}
    (h : l1 ++ a :: l2 = [b]) : l1 = [] ∧ a = b ∧ l2 = [] := by
  cases l1 with
  | nil =>
      simp only [List.nil_append, List.cons.injEq] at h
      exact ⟨rfl, h.1, h.2⟩
  | cons x xs =>
      simp only [List.cons_append, List.cons.injEq] at h
      exact absurd h.2 (by simp)

theorem demoteAt_decomp (l1 l2 : List TagInfo) (t : TagInfo)
    (hne : ∀ u ∈ l1, u.index ≠ t.index) :
    demoteAt t.index (l1 ++ t :: l2) = l1 ++ { t with type := TagType.standalone } :: l2 := by
  induction l1 with
  | nil => simp [demoteAt]
  | cons u us ih =>
      have hu : u.index ≠ t.index := hne u (List.mem_cons_self _ _)
      simp only [List.cons_append, demoteAt, if_neg hu, List.append_eq]
      rw [ih (fun v hv => hne v (List.mem_cons_of_mem _ hv))]

theorem demote_fold_shape :
    ∀ (stackR : List StackEntry) (tags : List TagInfo),
      (tags.map TagInfo.index).Nodup →
      (stackR.map StackEntry.id).Nodup →
      (∀ e ∈ stackR, ∃ t, tagsWithId tags e.id = [t] ∧ t.type = TagType.pairedStart ∧
        t.index = e.startIndex) →
      (∀ n, (∀ e ∈ stackR, e.id ≠ n) → pairIdShapeOk tags n) →
      ∀ n, pairIdShapeOk (stackR.foldl (fun ts e => demoteAt e.startIndex ts) tags) n := by
  intro stackR
  induction stackR with
  | nil =>
      intro tags hidx hnors hstk hshape n
      exact hshape n (by simp)
  | cons e rest ih =>
      intro tags hidx hnors hstk hshape n
      obtain ⟨t, hfilter, hty, htidx⟩ := hstk e (List.mem_cons_self _ _)
      have htmem : t ∈ tags :=
        mem_of_mem_tagsWithId (hfilter ▸ List.mem_singleton_self t)
      have htpid : t.pairId = e.id :=
        pairId_of_mem_tagsWithId (hfilter ▸ List.mem_singleton_self t)
      obtain ⟨l1, l2, htags⟩ := List.append_of_mem htmem
      subst htags
      have hnotidx : t.index ∉ (l1 ++ l2).map TagInfo.index := by
        have h1 : ((l1 ++ t :: l2).map TagInfo.index) =
            l1.map TagInfo.index ++ t.index :: l2.map TagInfo.index := by simp
        rw [h1] at hidx
        have h2 := (List.nodup_cons.mp (List.nodup_middle.mp hidx)).1
        simpa using h2
      have hnel1 : ∀ u ∈ l1, u.index ≠ t.index := by
        intro u hu hh
        exact hnotidx (hh ▸ List.mem_map_of_mem TagInfo.index (List.mem_append_left _ hu))
      have hdem : demoteAt e.startIndex (l1 ++ t :: l2) =
          l1 ++ { t with type := TagType.standalone } :: l2 := by
        rw [← htidx]
        exact demoteAt_decomp l1 l2 t hnel1
      -- filters before and after the demotion of t
      have hfl : tagsWithId l1 e.id = [] ∧ tagsWithId l2 e.id = [] := by
        have := hfilter
        rw [tagsWithId_decomp, if_pos htpid] at this
        have h2 := append_middle_singleton (by simpa using this)
        exact ⟨h2.1, h2.2.2⟩
      have hsame : ∀ m, m ≠ e.id →
          tagsWithId (l1 ++ { t with type := TagType.standalone } :: l2) m =
            tagsWithId (l1 ++ t :: l2) m := by
        intro m hm
        rw [tagsWithId_decomp, tagsWithId_decomp]
        have hcond : ¬(({ t with type := TagType.standalone } : TagInfo).pairId = m) := by
          show ¬(t.pairId = m)
          rw [htpid]
          exact fun hh => hm hh.symm
        rw [if_neg hcond, if_neg (by rw [htpid]; exact fun hh => hm hh.symm)]
      have hnewfilter : tagsWithId (l1 ++ { t with type := TagType.standalone } :: l2) e.id =
          [{ t with type := TagType.standalone }] := by
        rw [tagsWithId_decomp, if_pos (show ({ t with type := TagType.standalone } :
          TagInfo).pairId = e.id from htpid), hfl.1, hfl.2]
        rfl
      rw [List.foldl_cons, hdem]
      apply ih
      · have : (l1 ++ { t with type := TagType.standalone } :: l2).map TagInfo.index =
            (l1 ++ t :: l2).map TagInfo.index := by simp
        rw [this]
        exact hidx
      · exact (List.nodup_cons.mp hnors).2
      · intro e' he'
        have hne : e'.id ≠ e.id := by
          intro hh
          have := (List.nodup_cons.mp hnors).1
          exact this (hh ▸ List.mem_map_of_mem StackEntry.id he')
        obtain ⟨u, hu, huty, huidx⟩ := hstk e' (List.mem_cons_of_mem _ he')
        exact ⟨u, by rw [hsame e'.id hne, hu], huty, huidx⟩
      · intro m hm
        by_cases hme : m = e.id
        · subst hme
          right
          left
          exact ⟨{ t with type := TagType.standalone }, hnewfilter, Or.inr rfl⟩
        · have hm' : ∀ e' ∈ e :: rest, e'.id ≠ m := by
            intro e' he'
            rcases List.mem_cons.mp he' with rfl | h2
            · exact fun hh => hme (hh.symm)
            · exact hm e' h2
          have hold := hshape m hm'
          unfold pairIdShapeOk at hold ⊢
          rw [hsame m (fun hh => hme hh)]
          exact hold

theorem findTagsAux_lb :
    ∀ (fuel pos : Nat) (s : List Char), ∀ r ∈ findTagsAux fuel pos s, pos ≤ r.index := by
  intro fuel
  induction fuel with
  | zero => intro pos s r hr; simp [findTagsAux] at hr
  | succ fuel ih =>
      intro pos s r hr
      cases s with
      | nil => simp [findTagsAux] at hr
      | cons c rest =>
          by_cases hc : (c == '<') = true
          · rw [findTagsAux, if_pos hc] at hr
            cases htry : tryTagAfterLt rest with
            | none =>
                simp only [htry] at hr
                exact Nat.le_of_succ_le (ih (pos + 1) rest r hr)
            | some trip =>
                obtain ⟨tagRest, name, remainder⟩ := trip
                simp only [htry, List.mem_cons] at hr
                rcases hr with rfl | hr
                · exact Nat.le_refl _
                · have := ih (pos + (tagRest.length + 1)) remainder r hr
                  omega
          · rw [findTagsAux, if_neg hc] at hr
            exact Nat.le_of_succ_le (ih (pos + 1) rest r hr)

theorem findTagsAux_pairwise :
    ∀ (fuel pos : Nat) (s : List Char),
      ((findTagsAux fuel pos s).map RawTag.index).Pairwise (· < ·) := by
  intro fuel
  induction fuel with
  | zero => intro pos s; simp [findTagsAux]
  | succ fuel ih =>
      intro pos s
      cases s with
      | nil => simp [findTagsAux]
      | cons c rest =>
          by_cases hc : (c == '<') = true
          · rw [findTagsAux, if_pos hc]
            cases htry : tryTagAfterLt rest with
            | none =>
                simp only [htry]
                exact ih (pos + 1) rest
            | some trip =>
                obtain ⟨tagRest, name, remainder⟩ := trip
                simp only [htry, List.map_cons]
                rw [List.pairwise_cons]
                constructor
                · intro m hm
                  rcases List.mem_map.mp hm with ⟨r, hr, rfl⟩
                  have := findTagsAux_lb fuel (pos + (tagRest.length + 1)) remainder r hr
                  omega
                · exact ih _ _
          · rw [findTagsAux, if_neg hc]
            exact ih (pos + 1) rest

theorem findTags_index_nodup (text : String) :
    ((findHtmlTags text).map RawTag.index).Nodup :=
  (findTagsAux_pairwise (text.data.length + 1) 0 text.data).imp (fun h => Nat.ne_of_lt h)

/-- C7: for every input text, in the classified tag list produced by
`convertHtmlTagsToTmxInline` (which is in bijection with the emitted inline
wrappers), every pairing id is either unused, used by exactly one
placeholder-like (self-closing or standalone) wrapper, or shared by exactly
one begin-pair wrapper and exactly one end-pair wrapper — so a bpt and its
ept carry exactly one common id, and no id of a pair is reused by any other
wrapper of the same text. -/
theorem convertHtmlTags_pairIds_consistent (text : String) (n : Nat) :
    pairIdShapeOk (classifyTags (findHtmlTags text)) n := by
  have hinit : scanInv [] [] 1 :=
    ⟨by simp, by simp, by simp, by simp, fun m _ => Or.inl rfl⟩
  obtain ⟨⟨hlt, htlt, hnodup, hstk, hshape⟩, hmap⟩ :=
    classifyFold_inv (findHtmlTags text) [] [] 1 hinit
  have hidxnodup : ((List.foldl classifyStep ([], [], 1) (findHtmlTags text)).2.1.map
      TagInfo.index).Nodup := by
    rw [hmap]
    simpa using findTags_index_nodup text
  show pairIdShapeOk (demoteAll (List.foldl classifyStep ([], [], 1) (findHtmlTags text)).1
    (List.foldl classifyStep ([], [], 1) (findHtmlTags text)).2.1) n
  unfold demoteAll
  apply demote_fold_shape
  · exact hidxnodup
  · rw [List.map_reverse]
    exact List.nodup_reverse.mpr hnodup
  · intro e he
    exact hstk e (List.mem_reverse.mp he)
  · intro m hm
    exact hshape m (fun e he => hm e (List.mem_reverse.mpr he))
